import Mathlib

/-!
Verification of the `bft` Brainf*ck front-end: the tokenizer and bracket
validator of `bft_types/src/lib.rs`, and the VM shell of
`bft_interp/src/lib.rs`, shallowly embedded in Lean.  Source bytes are
modelled as natural numbers (their byte values), Rust `Vec`s as lists,
`PathBuf` as `String`, and the `&mut self` method `validate_brackets` as a
function returning the updated program together with the optional error.
-/

/-- Raw bytecodes for the brainf*ck VM (enum `Instruction`). -/
inductive Instruction where
  | MoveLeft
  | MoveRight
  | Increment
  | Decrement
  | Input
  | Output
  | BeginLoop
  | EndLoop
deriving DecidableEq

/-- Annotated bytecode instruction (struct `InputInstruction`): opcode plus
1-based line and column of the byte it came from. -/
structure InputInstruction where
  inst : Instruction
  line_number : Nat
  char_number : Nat
deriving DecidableEq

/-- Errors of the bracket matching algorithm (enum `BracketMatchError`). -/
inductive BracketMatchError where
  | ExtraOpeningBracket (source_name : String) (line_number char_number : Nat)
  | ExtraClosingBracket (source_name : String) (line_number char_number : Nat)
deriving DecidableEq

/-- A whole program (struct `BFprogram`). -/
structure BFprogram where
  source_name : String
  src : List InputInstruction
  brackets : List (Nat × Nat)
deriving DecidableEq

/-- `Instruction::from_byte`: the 8 recognized opcode bytes
(60 is the byte of the less-than sign, 62 greater-than, 43 plus, 45 minus,
44 comma, 46 dot, 91 opening square bracket, 93 closing square bracket). -/
def Instruction.from_byte (c : Nat) : Option Instruction :=
  match c with
  | 60 => some .MoveLeft
  | 62 => some .MoveRight
  | 43 => some .Increment
  | 45 => some .Decrement
  | 44 => some .Input
  | 46 => some .Output
  | 91 => some .BeginLoop
  | 93 => some .EndLoop
  | _ => none

/-- `data.split(|c| *c == b'\n')` of Rust on a byte slice: the pieces between
line-feed bytes (byte 10); an empty slice yields one empty piece, and a
trailing line feed yields a trailing empty piece. -/
def splitNL : List Nat → List (List Nat)
  | [] => [[]]
  | c :: rest =>
    if c = 10 then [] :: splitNL rest
    else
      match splitNL rest with
      | [] => [[c]]
      | line :: lines => (c :: line) :: lines

/-- The inner loop of `BFprogram::new`: scan one line, `colIdx` being the
0-based index of the next byte within the line; recognized bytes become
instructions annotated with the line number and the 1-based column. -/
def tokenizeLine (lineNo : Nat) : Nat → List Nat → List InputInstruction
  | _, [] => []
  | colIdx, c :: rest =>
    match Instruction.from_byte c with
    | some i => ⟨i, lineNo, colIdx + 1⟩ :: tokenizeLine lineNo (colIdx + 1) rest
    | none => tokenizeLine lineNo (colIdx + 1) rest

/-- The outer loop of `BFprogram::new`: scan the lines, `lineIdx` being the
0-based index of the next line; each line is tokenized with its 1-based
line number. -/
def tokenizeLines : Nat → List (List Nat) → List InputInstruction
  | _, [] => []
  | lineIdx, line :: rest =>
    tokenizeLine (lineIdx + 1) 0 line ++ tokenizeLines (lineIdx + 1) rest

/-- `BFprogram::new`: split the input on line feeds, tokenize every line,
start with an empty bracket table. -/
def BFprogram.new (source_name : String) (data : List Nat) : BFprogram :=
  { source_name := source_name
    src := tokenizeLines 0 (splitNL data)
    brackets := [] }

/-- Placeholder instruction used to total-ize the `self.src[idx]` indexing of
the source (which in Rust panics out of bounds, a case that never occurs). -/
def dummyII : InputInstruction := ⟨.MoveLeft, 0, 0⟩

/-- The loop of `BFprogram::validate_brackets`: walk the instructions with
their 0-based index `idx`, pushing the index of every `BeginLoop`, popping on
every `EndLoop` to record a matched pair, and failing on an `EndLoop` whose
stack is empty.  Returns the final stack and bracket table on success. -/
def validateGo (source_name : String) :
    List InputInstruction → Nat → List Nat → List (Nat × Nat) →
    Except BracketMatchError (List Nat × List (Nat × Nat))
  | [], _, stack, brackets => .ok (stack, brackets)
  | inst :: rest, idx, stack, brackets =>
    match inst.inst with
    | .BeginLoop => validateGo source_name rest (idx + 1) (idx :: stack) brackets
    | .EndLoop =>
      match stack with
      | matched :: stack' =>
        validateGo source_name rest (idx + 1) stack' (brackets ++ [(matched, idx)])
      | [] =>
        .error (.ExtraClosingBracket source_name inst.line_number inst.char_number)
    | _ => validateGo source_name rest (idx + 1) stack brackets

/-- `BFprogram::validate_brackets`: run the scan; if it fails, return the
error and leave the program untouched; if the stack is left non-empty, report
the top entry as an unmatched opening bracket and leave the program
untouched; otherwise store the bracket table.  The `&mut self` method is
modelled as returning the program after the call next to the optional
error. -/
def BFprogram.validate_brackets (p : BFprogram) :
    BFprogram × Option BracketMatchError :=
  match validateGo p.source_name p.src 0 [] [] with
  | .error e => (p, some e)
  | .ok (stack, brackets) =>
    match stack with
    | idx :: _ =>
      let inst := p.src.getD idx dummyII
      (p, some (.ExtraOpeningBracket p.source_name inst.line_number inst.char_number))
    | [] => ({ p with brackets := brackets }, none)

theorem from_byte_isSome (c : Nat) :
    (Instruction.from_byte c).isSome
      = decide (c ∈ [60, 62, 43, 45, 44, 46, 91, 93]) := by
  unfold Instruction.from_byte
  split <;> simp_all

theorem tokenizeLine_length (lineNo : Nat) :
    ∀ (colIdx : Nat) (l : List Nat),
      (tokenizeLine lineNo colIdx l).length
        = l.countP (fun c => (Instruction.from_byte c).isSome) := by
  intro colIdx l
  induction l generalizing colIdx with
  | nil => simp [tokenizeLine]
  | cons c rest ih =>
    rw [List.countP_cons]
    cases h : Instruction.from_byte c <;>
      simp [tokenizeLine, h, ih]

theorem tokenizeLines_length :
    ∀ (lines : List (List Nat)) (k : Nat),
      (tokenizeLines k lines).length
        = (lines.map
            (fun line => line.countP (fun c => (Instruction.from_byte c).isSome))).sum := by
  intro lines
  induction lines with
  | nil => intro k; simp [tokenizeLines]
  | cons line rest ih =>
    intro k
    simp [tokenizeLines, tokenizeLine_length, ih]

theorem splitNL_ne_nil : ∀ l : List Nat, splitNL l ≠ [] := by
  intro l
  cases l with
  | nil => simp [splitNL]
  | cons c rest =>
    by_cases h : c = 10
    · simp [splitNL, h]
    · simp only [splitNL, if_neg h]
      cases splitNL rest <;> simp

theorem splitNL_countP (p : Nat → Bool) (hp : p 10 = false) :
    ∀ l : List Nat,
      ((splitNL l).map (fun line => line.countP p)).sum = l.countP p := by
  intro l
  induction l with
  | nil => simp [splitNL]
  | cons c rest ih =>
    by_cases h : c = 10
    · subst h
      simp [splitNL, List.countP_cons, hp, ih]
    · rw [List.countP_cons]
      simp only [splitNL, if_neg h]
      cases hs : splitNL rest with
      | nil => exact absurd hs (splitNL_ne_nil rest)
      | cons line lines =>
        rw [hs] at ih
        simp only [List.map_cons, List.sum_cons, List.countP_cons] at ih ⊢
        omega

/-- C4: for every input byte sequence, tokenization is total (`BFprogram.new`
is a Lean function, and it returns a program for every input) and the number
of instructions equals the number of input bytes among the 8 recognized
opcode bytes; every other byte produces no instruction. -/
theorem tokenization_total_count (source_name : String) (data : List Nat) :
    (BFprogram.new source_name data).src.length
      = data.countP (fun c => decide (c ∈ [60, 62, 43, 45, 44, 46, 91, 93])) := by
  have h10 : (fun c => (Instruction.from_byte c).isSome) 10 = false := by
    simp [Instruction.from_byte]
  have := splitNL_countP (fun c => (Instruction.from_byte c).isSome) h10 data
  simp only [BFprogram.new, tokenizeLines_length, this]
  exact List.countP_congr (fun c _ => by rw [from_byte_isSome c])

theorem tokenizeLine_mem (lineNo : Nat) :
    ∀ (l : List Nat) (colIdx : Nat) (inst : InputInstruction),
      inst ∈ tokenizeLine lineNo colIdx l →
      inst.line_number = lineNo ∧
      ∃ j, j < l.length ∧ inst.char_number = colIdx + j + 1 ∧
        Instruction.from_byte (l.getD j 0) = some inst.inst := by
  intro l
  induction l with
  | nil => intro colIdx inst h; simp [tokenizeLine] at h
  | cons c rest ih =>
    intro colIdx inst h
    cases hb : Instruction.from_byte c with
    | some i =>
      rw [tokenizeLine, hb] at h
      rcases List.mem_cons.mp h with heq | hmem
      · subst heq
        exact ⟨rfl, 0, by simp, by simp, by simpa using hb⟩
      · obtain ⟨hline, j, hj, hchar, hbyte⟩ := ih (colIdx + 1) inst hmem
        exact ⟨hline, j + 1, by simpa using hj, by omega, by simpa using hbyte⟩
    | none =>
      rw [tokenizeLine, hb] at h
      obtain ⟨hline, j, hj, hchar, hbyte⟩ := ih (colIdx + 1) inst h
      exact ⟨hline, j + 1, by simpa using hj, by omega, by simpa using hbyte⟩

theorem tokenizeLines_mem :
    ∀ (lines : List (List Nat)) (k : Nat) (inst : InputInstruction),
      inst ∈ tokenizeLines k lines →
      ∃ li, li < lines.length ∧
        inst ∈ tokenizeLine (k + li + 1) 0 (lines.getD li []) := by
  intro lines
  induction lines with
  | nil => intro k inst h; simp [tokenizeLines] at h
  | cons line rest ih =>
    intro k inst h
    rw [tokenizeLines] at h
    rcases List.mem_append.mp h with hmem | hmem
    · exact ⟨0, by simp, by simpa using hmem⟩
    · obtain ⟨li, hli, hmem'⟩ := ih (k + 1) inst hmem
      refine ⟨li + 1, by simpa using hli, ?_⟩
      have : k + 1 + li + 1 = k + (li + 1) + 1 := by omega
      rw [this] at hmem'
      simpa using hmem'

/-- C5: every produced instruction carries a 1-based line number given by
splitting the input on line-feed bytes and a 1-based column number equal to
the byte's position within its line, every byte of the line occupying one
column position: the byte of the line at that column maps to the
instruction's opcode. -/
theorem tokenization_locations (source_name : String) (data : List Nat)
    (inst : InputInstruction) (h : inst ∈ (BFprogram.new source_name data).src) :
    1 ≤ inst.line_number ∧ inst.line_number ≤ (splitNL data).length ∧
    1 ≤ inst.char_number ∧
    inst.char_number ≤ ((splitNL data).getD (inst.line_number - 1) []).length ∧
    Instruction.from_byte
        (((splitNL data).getD (inst.line_number - 1) []).getD (inst.char_number - 1) 0)
      = some inst.inst := by
  obtain ⟨li, hli, hmem⟩ := tokenizeLines_mem (splitNL data) 0 inst h
  obtain ⟨hline, j, hj, hchar, hbyte⟩ :=
    tokenizeLine_mem (0 + li + 1) ((splitNL data).getD li []) 0 inst hmem
  have hline' : inst.line_number = li + 1 := by omega
  have hchar' : inst.char_number = j + 1 := by omega
  refine ⟨by omega, by omega, by omega, ?_, ?_⟩
  · rw [hline', hchar']; simpa using hj
  · rw [hline', hchar']; simpa using hbyte

/-- Witness for C5 at a concrete input: the bytes of a less-than sign, a
space, a line feed and a closing bracket; the closing bracket is annotated
line 2, column 1, and the conclusion evaluates on it. -/
theorem tokenization_locations_witness :
    (⟨.EndLoop, 2, 1⟩ : InputInstruction) ∈ (BFprogram.new "t" [60, 32, 10, 93]).src ∧
    (1 ≤ (2 : Nat) ∧ 2 ≤ (splitNL [60, 32, 10, 93]).length ∧
      1 ≤ (1 : Nat) ∧
      1 ≤ ((splitNL [60, 32, 10, 93]).getD (2 - 1) []).length ∧
      Instruction.from_byte
          (((splitNL [60, 32, 10, 93]).getD (2 - 1) []).getD (1 - 1) 0)
        = some .EndLoop) :=
  ⟨by decide, tokenization_locations "t" [60, 32, 10, 93] ⟨.EndLoop, 2, 1⟩ (by decide)⟩

theorem drop_cons_facts {α : Type} (dflt : α) :
    ∀ (l : List α) (k : Nat) (x : α) (xs : List α),
      l.drop k = x :: xs →
      k < l.length ∧ l.getD k dflt = x ∧ l.drop (k + 1) = xs := by
  intro l
  induction l with
  | nil => intro k x xs h; simp at h
  | cons a as ih =>
    intro k x xs h
    cases k with
    | zero =>
      simp only [List.drop_zero] at h
      cases h
      exact ⟨by simp, by simp, by simp⟩
    | succ k' =>
      simp only [List.drop_succ_cons] at h
      obtain ⟨h1, h2, h3⟩ := ih k' x xs h
      exact ⟨by simpa using h1, by simpa using h2, by simpa using h3⟩

theorem drop_nil_length {α : Type} :
    ∀ (l : List α) (k : Nat), l.drop k = [] → l.length ≤ k := by
  intro l
  induction l with
  | nil => intro k _; simp
  | cons a as ih =>
    intro k h
    cases k with
    | zero => simp at h
    | succ k' =>
      simp only [List.drop_succ_cons] at h
      have := ih k' h
      simpa using Nat.succ_le_succ this

/-- The opcode of the instruction at a 0-based index of the sequence. -/
def instAt (insts : List InputInstruction) (i : Nat) : Instruction :=
  (insts.getD i dummyII).inst

/-- Two matched index pairs do not partially overlap: their spans are
disjoint or one lies strictly inside the other. -/
def properNesting (pr qr : Nat × Nat) : Prop :=
  pr.2 < qr.1 ∨ qr.2 < pr.1 ∨ (qr.1 < pr.1 ∧ pr.2 < qr.2) ∨ (pr.1 < qr.1 ∧ qr.2 < pr.2)

theorem properNesting_symm {pr qr : Nat × Nat} (h : properNesting pr qr) :
    properNesting qr pr := by
  unfold properNesting at h ⊢
  omega

/-- What the spec asks of a jump table: it covers every loop instruction, and
each pair is a `BeginLoop` strictly before its `EndLoop`, any two distinct
pairs properly nested. -/
def coversTable (insts : List InputInstruction) (table : List (Nat × Nat)) : Prop :=
  (∀ i, i < insts.length → instAt insts i = .BeginLoop → ∃ pr ∈ table, pr.1 = i) ∧
  (∀ j, j < insts.length → instAt insts j = .EndLoop → ∃ pr ∈ table, pr.2 = j) ∧
  (∀ pr ∈ table, instAt insts pr.1 = .BeginLoop ∧ instAt insts pr.2 = .EndLoop ∧
    pr.1 < pr.2 ∧ pr.2 < insts.length) ∧
  (∀ pr ∈ table, ∀ qr ∈ table, pr ≠ qr → properNesting pr qr)

/-- Invariant of the bracket-matching scan after the first `k` instructions
have been processed, with pending stack `stack` and accumulated table
`table`. -/
structure VInv (full : List InputInstruction) (k : Nat) (stack : List Nat)
    (table : List (Nat × Nat)) : Prop where
  stack_lt : ∀ e ∈ stack, e < k
  stack_begin : ∀ e ∈ stack, instAt full e = .BeginLoop
  stack_sorted : stack.Pairwise (fun a b => b < a)
  stack_table : ∀ e ∈ stack, ∀ pr ∈ table, e < pr.1 ∨ pr.2 < e
  cover_begin : ∀ i, i < k → instAt full i = .BeginLoop →
    i ∈ stack ∨ ∃ pr ∈ table, pr.1 = i
  cover_end : ∀ j, j < k → instAt full j = .EndLoop → ∃ pr ∈ table, pr.2 = j
  pairs_ok : ∀ pr ∈ table, instAt full pr.1 = .BeginLoop ∧
    instAt full pr.2 = .EndLoop ∧ pr.1 < pr.2 ∧ pr.2 < k
  nest : ∀ pr ∈ table, ∀ qr ∈ table, pr ≠ qr → properNesting pr qr

theorem VInv.step_other {full : List InputInstruction} {k : Nat}
    {stack : List Nat} {table : List (Nat × Nat)} (h : VInv full k stack table)
    (h1 : instAt full k ≠ .BeginLoop) (h2 : instAt full k ≠ .EndLoop) :
    VInv full (k + 1) stack table := by
  refine ⟨fun e he => ?_, h.stack_begin, h.stack_sorted, h.stack_table,
    fun i hi hb => ?_, fun j hj he => ?_, fun pr hpr => ?_, h.nest⟩
  · exact Nat.lt_succ_of_lt (h.stack_lt e he)
  · rcases Nat.lt_succ_iff_lt_or_eq.mp hi with hi' | rfl
    · exact h.cover_begin i hi' hb
    · exact absurd hb h1
  · rcases Nat.lt_succ_iff_lt_or_eq.mp hj with hj' | rfl
    · exact h.cover_end j hj' he
    · exact absurd he h2
  · obtain ⟨a, b, c, d⟩ := h.pairs_ok pr hpr
    exact ⟨a, b, c, Nat.lt_succ_of_lt d⟩

theorem VInv.step_push {full : List InputInstruction} {k : Nat}
    {stack : List Nat} {table : List (Nat × Nat)} (h : VInv full k stack table)
    (hb : instAt full k = .BeginLoop) :
    VInv full (k + 1) (k :: stack) table := by
  refine ⟨?_, ?_, ?_, ?_, ?_, ?_, ?_, h.nest⟩
  · intro e he
    rcases List.mem_cons.mp he with rfl | he'
    · omega
    · exact Nat.lt_succ_of_lt (h.stack_lt e he')
  · intro e he
    rcases List.mem_cons.mp he with rfl | he'
    · exact hb
    · exact h.stack_begin e he'
  · exact List.pairwise_cons.mpr ⟨fun e he => h.stack_lt e he, h.stack_sorted⟩
  · intro e he pr hpr
    rcases List.mem_cons.mp he with rfl | he'
    · exact Or.inr (h.pairs_ok pr hpr).2.2.2
    · exact h.stack_table e he' pr hpr
  · intro i hi hbi
    rcases Nat.lt_succ_iff_lt_or_eq.mp hi with hi' | rfl
    · rcases h.cover_begin i hi' hbi with hmem | hex
      · exact Or.inl (List.mem_cons_of_mem k hmem)
      · exact Or.inr hex
    · exact Or.inl (List.mem_cons_self i stack)
  · intro j hj hej
    rcases Nat.lt_succ_iff_lt_or_eq.mp hj with hj' | rfl
    · exact h.cover_end j hj' hej
    · rw [hb] at hej; cases hej
  · intro pr hpr
    obtain ⟨a, b, c, d⟩ := h.pairs_ok pr hpr
    exact ⟨a, b, c, Nat.lt_succ_of_lt d⟩

theorem VInv.step_pop {full : List InputInstruction} {k : Nat}
    {matched : Nat} {stack : List Nat} {table : List (Nat × Nat)}
    (h : VInv full k (matched :: stack) table)
    (he : instAt full k = .EndLoop) :
    VInv full (k + 1) stack (table ++ [(matched, k)]) := by
  have hmk : matched < k := h.stack_lt matched (List.mem_cons_self matched stack)
  have hmb : instAt full matched = .BeginLoop :=
    h.stack_begin matched (List.mem_cons_self matched stack)
  obtain ⟨hhead, htail⟩ := List.pairwise_cons.mp h.stack_sorted
  have hnew_nest : ∀ pr ∈ table, properNesting pr (matched, k) := by
    intro pr hpr
    obtain ⟨_, _, _, hk2⟩ := h.pairs_ok pr hpr
    rcases h.stack_table matched (List.mem_cons_self matched stack) pr hpr with hlt | hgt
    · exact Or.inr (Or.inr (Or.inl ⟨hlt, hk2⟩))
    · exact Or.inl hgt
  refine ⟨?_, ?_, htail, ?_, ?_, ?_, ?_, ?_⟩
  · intro e hee
    exact Nat.lt_succ_of_lt (h.stack_lt e (List.mem_cons_of_mem matched hee))
  · intro e hee
    exact h.stack_begin e (List.mem_cons_of_mem matched hee)
  · intro e hee pr hpr
    rcases List.mem_append.mp hpr with hpr' | hpr'
    · exact h.stack_table e (List.mem_cons_of_mem matched hee) pr hpr'
    · have : pr = (matched, k) := by simpa using hpr'
      subst this
      exact Or.inl (hhead e hee)
  · intro i hi hbi
    rcases Nat.lt_succ_iff_lt_or_eq.mp hi with hi' | rfl
    · rcases h.cover_begin i hi' hbi with hmem | ⟨pr, hpr, hpr1⟩
      · rcases List.mem_cons.mp hmem with rfl | hmem'
        · exact Or.inr ⟨(i, k), by simp, rfl⟩
        · exact Or.inl hmem'
      · exact Or.inr ⟨pr, List.mem_append_left _ hpr, hpr1⟩
    · rw [he] at hbi; cases hbi
  · intro j hj hej
    rcases Nat.lt_succ_iff_lt_or_eq.mp hj with hj' | rfl
    · obtain ⟨pr, hpr, hpr2⟩ := h.cover_end j hj' hej
      exact ⟨pr, List.mem_append_left _ hpr, hpr2⟩
    · exact ⟨(matched, j), by simp, rfl⟩
  · intro pr hpr
    rcases List.mem_append.mp hpr with hpr' | hpr'
    · obtain ⟨a, b, c, d⟩ := h.pairs_ok pr hpr'
      exact ⟨a, b, c, Nat.lt_succ_of_lt d⟩
    · have : pr = (matched, k) := by simpa using hpr'
      subst this
      exact ⟨hmb, he, hmk, Nat.lt_succ_self k⟩
  · intro pr hpr qr hqr hne
    rcases List.mem_append.mp hpr with hpr' | hpr' <;>
      rcases List.mem_append.mp hqr with hqr' | hqr'
    · exact h.nest pr hpr' qr hqr' hne
    · have : qr = (matched, k) := by simpa using hqr'
      subst this
      exact hnew_nest pr hpr'
    · have : pr = (matched, k) := by simpa using hpr'
      subst this
      exact properNesting_symm (hnew_nest qr hqr')
    · have h1 : pr = (matched, k) := by simpa using hpr'
      have h2 : qr = (matched, k) := by simpa using hqr'
      rw [h1, h2] at hne
      exact absurd rfl hne

theorem validateGo_nil (src : String) (k : Nat) (stack : List Nat)
    (brackets : List (Nat × Nat)) :
    validateGo src [] k stack brackets = .ok (stack, brackets) := rfl

theorem validateGo_cons (src : String) (inst : InputInstruction)
    (rest : List InputInstruction) (k : Nat) (stack : List Nat)
    (brackets : List (Nat × Nat)) :
    validateGo src (inst :: rest) k stack brackets
      = match inst.inst with
        | .BeginLoop => validateGo src rest (k + 1) (k :: stack) brackets
        | .EndLoop =>
          match stack with
          | matched :: stack' =>
            validateGo src rest (k + 1) stack' (brackets ++ [(matched, k)])
          | [] =>
            .error (.ExtraClosingBracket src inst.line_number inst.char_number)
        | _ => validateGo src rest (k + 1) stack brackets := rfl

theorem validateGo_ok_inv (src : String) :
    ∀ (rest : List InputInstruction) (k : Nat) (s : List Nat)
      (b : List (Nat × Nat)) (full : List InputInstruction),
      full.drop k = rest → k ≤ full.length → VInv full k s b →
      ∀ s' b', validateGo src rest k s b = .ok (s', b') →
      VInv full full.length s' b' := by
  intro rest
  induction rest with
  | nil =>
    intro k s b full hdrop hle hinv s' b' hrun
    have hk : full.length ≤ k := drop_nil_length full k hdrop
    have hkeq : k = full.length := le_antisymm hle hk
    rw [validateGo_nil] at hrun
    simp only [Except.ok.injEq, Prod.mk.injEq] at hrun
    obtain ⟨rfl, rfl⟩ := hrun
    rwa [hkeq] at hinv
  | cons inst rest' ih =>
    intro k s b full hdrop hle hinv s' b' hrun
    obtain ⟨hk, hget, hdrop'⟩ := drop_cons_facts dummyII full k inst rest' hdrop
    have hiAt : instAt full k = inst.inst := by unfold instAt; rw [hget]
    have hle' : k + 1 ≤ full.length := hk
    rw [validateGo_cons] at hrun
    cases hi : inst.inst with
    | BeginLoop =>
      rw [hi] at hrun
      exact ih (k + 1) (k :: s) b full hdrop' hle'
        (hinv.step_push (hiAt.trans hi)) s' b' hrun
    | EndLoop =>
      cases s with
      | nil => rw [hi] at hrun; cases hrun
      | cons matched stail =>
        rw [hi] at hrun
        exact ih (k + 1) stail (b ++ [(matched, k)]) full hdrop' hle'
          (hinv.step_pop (hiAt.trans hi)) s' b' hrun
    | MoveLeft =>
      rw [hi] at hrun
      exact ih (k + 1) s b full hdrop' hle'
        (hinv.step_other (by rw [hiAt, hi]; exact fun h => by cases h)
          (by rw [hiAt, hi]; exact fun h => by cases h)) s' b' hrun
    | MoveRight =>
      rw [hi] at hrun
      exact ih (k + 1) s b full hdrop' hle'
        (hinv.step_other (by rw [hiAt, hi]; exact fun h => by cases h)
          (by rw [hiAt, hi]; exact fun h => by cases h)) s' b' hrun
    | Increment =>
      rw [hi] at hrun
      exact ih (k + 1) s b full hdrop' hle'
        (hinv.step_other (by rw [hiAt, hi]; exact fun h => by cases h)
          (by rw [hiAt, hi]; exact fun h => by cases h)) s' b' hrun
    | Decrement =>
      rw [hi] at hrun
      exact ih (k + 1) s b full hdrop' hle'
        (hinv.step_other (by rw [hiAt, hi]; exact fun h => by cases h)
          (by rw [hiAt, hi]; exact fun h => by cases h)) s' b' hrun
    | Input =>
      rw [hi] at hrun
      exact ih (k + 1) s b full hdrop' hle'
        (hinv.step_other (by rw [hiAt, hi]; exact fun h => by cases h)
          (by rw [hiAt, hi]; exact fun h => by cases h)) s' b' hrun
    | Output =>
      rw [hi] at hrun
      exact ih (k + 1) s b full hdrop' hle'
        (hinv.step_other (by rw [hiAt, hi]; exact fun h => by cases h)
          (by rw [hiAt, hi]; exact fun h => by cases h)) s' b' hrun

theorem VInv_initial (full : List InputInstruction) : VInv full 0 [] [] := by
  refine ⟨?_, ?_, ?_, ?_, ?_, ?_, ?_, ?_⟩ <;>
    first
      | exact fun e he => absurd he (List.not_mem_nil e)
      | exact fun i hi => absurd hi (by omega)
      | exact List.Pairwise.nil

theorem validateGo_full_inv (p : BFprogram) (b : List (Nat × Nat))
    (h : validateGo p.source_name p.src 0 [] [] = .ok ([], b)) :
    VInv p.src p.src.length [] b :=
  validateGo_ok_inv p.source_name p.src 0 [] [] p.src (List.drop_zero p.src)
    (Nat.zero_le _) (VInv_initial p.src) [] b h

/-- C1: when bracket validation succeeds, the stored jump table covers every
`BeginLoop` and `EndLoop` of the program, every matched pair is a `BeginLoop`
at the smaller index and an `EndLoop` at the larger one, and any two distinct
pairs are properly nested (no partial overlap). -/
theorem validate_brackets_coversTable (p p' : BFprogram)
    (h : p.validate_brackets = (p', none)) :
    coversTable p.src p'.brackets := by
  unfold BFprogram.validate_brackets at h
  cases hg : validateGo p.source_name p.src 0 [] [] with
  | error e =>
    rw [hg] at h
    simp at h
  | ok sb =>
    obtain ⟨s, b⟩ := sb
    rw [hg] at h
    cases s with
    | cons idx stail => simp at h
    | nil =>
      simp only [Prod.mk.injEq] at h
      obtain ⟨hp', -⟩ := h
      have hinv := validateGo_full_inv p b hg
      subst hp'
      refine ⟨?_, hinv.cover_end, hinv.pairs_ok, hinv.nest⟩
      intro i hi hb
      rcases hinv.cover_begin i hi hb with hmem | hex
      · exact absurd hmem (List.not_mem_nil i)
      · exact hex

/-- Witness for C1 at the concrete program from the bytes of two opening and
two closing brackets nested as two loops, one inside the other. -/
theorem validate_brackets_coversTable_witness :
    coversTable (BFprogram.new "w" [91, 91, 93, 93]).src
      (((BFprogram.new "w" [91, 91, 93, 93]).validate_brackets).1).brackets :=
  validate_brackets_coversTable (BFprogram.new "w" [91, 91, 93, 93])
    ((BFprogram.new "w" [91, 91, 93, 93]).validate_brackets).1 (by decide)

/-- Number of `BeginLoop` opcodes in an instruction sequence. -/
def countBegin (l : List InputInstruction) : Nat :=
  l.countP (fun i => decide (i.inst = .BeginLoop))

/-- Number of `EndLoop` opcodes in an instruction sequence. -/
def countEnd (l : List InputInstruction) : Nat :=
  l.countP (fun i => decide (i.inst = .EndLoop))

theorem countBegin_cons (inst : InputInstruction) (l : List InputInstruction) :
    countBegin (inst :: l)
      = countBegin l + (if inst.inst = .BeginLoop then 1 else 0) := by
  simp [countBegin, List.countP_cons]

theorem countEnd_cons (inst : InputInstruction) (l : List InputInstruction) :
    countEnd (inst :: l)
      = countEnd l + (if inst.inst = .EndLoop then 1 else 0) := by
  simp [countEnd, List.countP_cons]

theorem validateGo_closing_error (src : String) :
    ∀ (l : List InputInstruction) (k : Nat) (s : List Nat)
      (b : List (Nat × Nat)) (nm : String) (ln ch : Nat),
      validateGo src l k s b = .error (.ExtraClosingBracket nm ln ch) →
      nm = src ∧
      ∃ t, t < l.length ∧ (l.getD t dummyII).inst = .EndLoop ∧
        (l.getD t dummyII).line_number = ln ∧ (l.getD t dummyII).char_number = ch ∧
        countEnd (l.take t) = s.length + countBegin (l.take t) ∧
        ∀ u, u < t → (l.getD u dummyII).inst = .EndLoop →
          countEnd (l.take u) < s.length + countBegin (l.take u) := by
  intro l
  induction l with
  | nil =>
    intro k s b nm ln ch hrun
    rw [validateGo_nil] at hrun
    cases hrun
  | cons inst rest ih =>
    intro k s b nm ln ch hrun
    rw [validateGo_cons] at hrun
    cases hi : inst.inst <;> rw [hi] at hrun
    case EndLoop =>
      cases s with
      | nil =>
        simp only [Except.error.injEq,
          BracketMatchError.ExtraClosingBracket.injEq] at hrun
        obtain ⟨h1, h2, h3⟩ := hrun
        refine ⟨h1.symm, 0, by simp, by simpa using hi, by simpa using h2,
          by simpa using h3, by simp [countBegin, countEnd], ?_⟩
        intro u hu
        omega
      | cons m stail =>
        obtain ⟨hnm, t', ht', hend, hln, hch, hcount, hfirst⟩ :=
          ih _ _ _ nm ln ch hrun
        refine ⟨hnm, t' + 1, by simp only [List.length_cons]; omega,
          by simpa using hend, by simpa using hln, by simpa using hch, ?_, ?_⟩
        · simp only [List.take_succ_cons, countBegin_cons, countEnd_cons, hi,
            List.length_cons] at hcount ⊢
          simp at hcount ⊢
          omega
        · intro u hu hEnd
          cases u with
          | zero =>
            simp [List.take_zero, countBegin, countEnd, List.length_cons]
          | succ u' =>
            have hh := hfirst u' (by omega) (by simpa using hEnd)
            simp only [List.take_succ_cons, countBegin_cons, countEnd_cons, hi,
              List.length_cons] at hh ⊢
            simp at hh ⊢
            omega
    all_goals (
      obtain ⟨hnm, t', ht', hend, hln, hch, hcount, hfirst⟩ :=
        ih _ _ _ nm ln ch hrun
      refine ⟨hnm, t' + 1, by simp only [List.length_cons]; omega,
        by simpa using hend, by simpa using hln, by simpa using hch, ?_, ?_⟩
      · simp only [List.take_succ_cons, countBegin_cons, countEnd_cons, hi,
          List.length_cons] at hcount ⊢
        simp at hcount ⊢
        omega
      · intro u hu hEnd
        cases u with
        | zero =>
          simp only [List.getD_cons_zero, hi] at hEnd
          exact absurd hEnd (by decide)
        | succ u' =>
          have hh := hfirst u' (by omega) (by simpa using hEnd)
          simp only [List.take_succ_cons, countBegin_cons, countEnd_cons, hi,
            List.length_cons] at hh ⊢
          simp at hh ⊢
          omega)

/-- C2: when validation fails with the unmatched-closing-bracket error, the
error carries the source name and the line and column of an `EndLoop` that is
the first unmatched close in left-to-right instruction order (every earlier
prefix is balanced in favour of the opens, and at this instruction the closes
catch up with the opens); in particular the nine-byte program of two nested
loops followed by an extra closing bracket fails at line 1, column 9. -/
theorem validate_brackets_first_unmatched_close :
    (∀ (p p' : BFprogram) (nm : String) (ln ch : Nat),
      p.validate_brackets = (p', some (.ExtraClosingBracket nm ln ch)) →
      nm = p.source_name ∧
      ∃ t, t < p.src.length ∧ (p.src.getD t dummyII).inst = .EndLoop ∧
        (p.src.getD t dummyII).line_number = ln ∧
        (p.src.getD t dummyII).char_number = ch ∧
        countEnd (p.src.take t) = countBegin (p.src.take t) ∧
        ∀ u, u < t → (p.src.getD u dummyII).inst = .EndLoop →
          countEnd (p.src.take u) < countBegin (p.src.take u)) ∧
    (BFprogram.new "mod.test" [91, 91, 93, 91, 93, 91, 93, 93, 93]).validate_brackets
      = (BFprogram.new "mod.test" [91, 91, 93, 91, 93, 91, 93, 93, 93],
         some (.ExtraClosingBracket "mod.test" 1 9)) := by
  constructor
  · intro p p' nm ln ch h
    unfold BFprogram.validate_brackets at h
    cases hg : validateGo p.source_name p.src 0 [] [] with
    | error e =>
      rw [hg] at h
      simp only [Prod.mk.injEq, Option.some.injEq] at h
      obtain ⟨-, rfl⟩ := h
      obtain ⟨hnm, t, ht, hend, hln, hch, hcount, hfirst⟩ :=
        validateGo_closing_error p.source_name p.src 0 [] [] nm ln ch hg
      refine ⟨hnm, t, ht, hend, hln, hch, by simpa using hcount, ?_⟩
      intro u hu hEnd
      simpa using hfirst u hu hEnd
    | ok sb =>
      obtain ⟨s, b⟩ := sb
      rw [hg] at h
      cases s with
      | nil => simp at h
      | cons idx stail => simp at h
  · decide

/-- Witness for C2: its general part applied to the concrete nine-byte
program, whose unmatched close sits at instruction index 8, line 1,
column 9. -/
theorem validate_brackets_first_unmatched_close_witness :
    "mod.test"
        = (BFprogram.new "mod.test" [91, 91, 93, 91, 93, 91, 93, 93, 93]).source_name ∧
    ∃ t, t < (BFprogram.new "mod.test" [91, 91, 93, 91, 93, 91, 93, 93, 93]).src.length ∧
      ((BFprogram.new "mod.test" [91, 91, 93, 91, 93, 91, 93, 93, 93]).src.getD t
          dummyII).inst = .EndLoop ∧
      ((BFprogram.new "mod.test" [91, 91, 93, 91, 93, 91, 93, 93, 93]).src.getD t
          dummyII).line_number = 1 ∧
      ((BFprogram.new "mod.test" [91, 91, 93, 91, 93, 91, 93, 93, 93]).src.getD t
          dummyII).char_number = 9 ∧
      countEnd ((BFprogram.new "mod.test" [91, 91, 93, 91, 93, 91, 93, 93, 93]).src.take t)
        = countBegin
            ((BFprogram.new "mod.test" [91, 91, 93, 91, 93, 91, 93, 93, 93]).src.take t) ∧
      ∀ u, u < t →
        ((BFprogram.new "mod.test" [91, 91, 93, 91, 93, 91, 93, 93, 93]).src.getD u
            dummyII).inst = .EndLoop →
        countEnd ((BFprogram.new "mod.test" [91, 91, 93, 91, 93, 91, 93, 93, 93]).src.take u)
          < countBegin
              ((BFprogram.new "mod.test" [91, 91, 93, 91, 93, 91, 93, 93, 93]).src.take u) :=
  validate_brackets_first_unmatched_close.1
    (BFprogram.new "mod.test" [91, 91, 93, 91, 93, 91, 93, 93, 93])
    (BFprogram.new "mod.test" [91, 91, 93, 91, 93, 91, 93, 93, 93])
    "mod.test" 1 9 (by decide)

theorem validateGo_error_closing (src : String) :
    ∀ (l : List InputInstruction) (k : Nat) (s : List Nat)
      (b : List (Nat × Nat)) (e : BracketMatchError),
      validateGo src l k s b = .error e →
      ∃ nm ln ch, e = .ExtraClosingBracket nm ln ch := by
  intro l
  induction l with
  | nil =>
    intro k s b e h
    rw [validateGo_nil] at h
    cases h
  | cons inst rest ih =>
    intro k s b e h
    rw [validateGo_cons] at h
    cases hi : inst.inst <;> rw [hi] at h
    case EndLoop =>
      cases s with
      | nil =>
        simp only [Except.error.injEq] at h
        exact ⟨src, inst.line_number, inst.char_number, h.symm⟩
      | cons m stail => exact ih _ _ _ e h
    all_goals exact ih _ _ _ e h

/-- C3: when validation fails with the unmatched-opening-bracket error, the
error carries the source name and the line and column of the top entry of the
final stack, a `BeginLoop` whose index exceeds every other remaining
unmatched `BeginLoop` (the last-pushed, innermost remaining one) and that
heads no matched pair, while every other `BeginLoop` is on the stack or
matched; in particular the seven-byte program fails at line 1, column 1, and
the program of one matched pair followed by a lone opening bracket fails at
column 3 even though its first `BeginLoop` sits at column 1. -/
theorem validate_brackets_innermost_unmatched_open :
    (∀ (p p' : BFprogram) (nm : String) (ln ch : Nat),
      p.validate_brackets = (p', some (.ExtraOpeningBracket nm ln ch)) →
      nm = p.source_name ∧
      ∃ idx stail b,
        validateGo p.source_name p.src 0 [] [] = .ok (idx :: stail, b) ∧
        idx < p.src.length ∧ instAt p.src idx = .BeginLoop ∧
        (p.src.getD idx dummyII).line_number = ln ∧
        (p.src.getD idx dummyII).char_number = ch ∧
        (∀ e ∈ stail, e < idx) ∧
        (∀ pr ∈ b, pr.1 ≠ idx) ∧
        (∀ i, i < p.src.length → instAt p.src i = .BeginLoop →
          i ∈ idx :: stail ∨ ∃ pr ∈ b, pr.1 = i)) ∧
    (BFprogram.new "mod.test" [91, 91, 93, 91, 93, 91, 93]).validate_brackets
      = (BFprogram.new "mod.test" [91, 91, 93, 91, 93, 91, 93],
         some (.ExtraOpeningBracket "mod.test" 1 1)) ∧
    ((BFprogram.new "t2" [91, 93, 91]).validate_brackets
        = (BFprogram.new "t2" [91, 93, 91],
           some (.ExtraOpeningBracket "t2" 1 3)) ∧
      instAt (BFprogram.new "t2" [91, 93, 91]).src 0 = .BeginLoop ∧
      ((BFprogram.new "t2" [91, 93, 91]).src.getD 0 dummyII).char_number = 1) := by
  refine ⟨?_, by decide, by decide⟩
  intro p p' nm ln ch h
  unfold BFprogram.validate_brackets at h
  cases hg : validateGo p.source_name p.src 0 [] [] with
  | error e =>
    rw [hg] at h
    simp only [Prod.mk.injEq, Option.some.injEq] at h
    obtain ⟨-, rfl⟩ := h
    obtain ⟨nm', ln', ch', heq⟩ :=
      validateGo_error_closing p.source_name p.src 0 [] [] _ hg
    cases heq
  | ok sb =>
    obtain ⟨s, b⟩ := sb
    rw [hg] at h
    cases s with
    | nil => simp at h
    | cons idx stail =>
      simp only [Prod.mk.injEq, Option.some.injEq,
        BracketMatchError.ExtraOpeningBracket.injEq] at h
      obtain ⟨-, hnm, hln, hch⟩ := h
      have hinv : VInv p.src p.src.length (idx :: stail) b :=
        validateGo_ok_inv p.source_name p.src 0 [] [] p.src (List.drop_zero p.src)
          (Nat.zero_le _) (VInv_initial p.src) (idx :: stail) b hg
      have hmem : idx ∈ idx :: stail := List.mem_cons_self idx stail
      refine ⟨hnm.symm, idx, stail, b, rfl, hinv.stack_lt idx hmem,
        hinv.stack_begin idx hmem, hln, hch,
        (List.pairwise_cons.mp hinv.stack_sorted).1, ?_, hinv.cover_begin⟩
      intro pr hpr
      have h1 := hinv.stack_table idx hmem pr hpr
      have h2 := (hinv.pairs_ok pr hpr).2.2.1
      omega

/-- Witness for C3: its general part applied to the concrete seven-byte
program, whose innermost remaining unmatched opening bracket is instruction
index 0 at line 1, column 1. -/
theorem validate_brackets_innermost_unmatched_open_witness :
    "mod.test" = (BFprogram.new "mod.test" [91, 91, 93, 91, 93, 91, 93]).source_name ∧
    ∃ idx stail b,
      validateGo (BFprogram.new "mod.test" [91, 91, 93, 91, 93, 91, 93]).source_name
          (BFprogram.new "mod.test" [91, 91, 93, 91, 93, 91, 93]).src 0 [] []
        = .ok (idx :: stail, b) ∧
      idx < (BFprogram.new "mod.test" [91, 91, 93, 91, 93, 91, 93]).src.length ∧
      instAt (BFprogram.new "mod.test" [91, 91, 93, 91, 93, 91, 93]).src idx
        = .BeginLoop ∧
      ((BFprogram.new "mod.test" [91, 91, 93, 91, 93, 91, 93]).src.getD idx
          dummyII).line_number = 1 ∧
      ((BFprogram.new "mod.test" [91, 91, 93, 91, 93, 91, 93]).src.getD idx
          dummyII).char_number = 1 ∧
      (∀ e ∈ stail, e < idx) ∧
      (∀ pr ∈ b, pr.1 ≠ idx) ∧
      (∀ i, i < (BFprogram.new "mod.test" [91, 91, 93, 91, 93, 91, 93]).src.length →
        instAt (BFprogram.new "mod.test" [91, 91, 93, 91, 93, 91, 93]).src i
          = .BeginLoop →
        i ∈ idx :: stail ∨ ∃ pr ∈ b, pr.1 = i) :=
  validate_brackets_innermost_unmatched_open.1
    (BFprogram.new "mod.test" [91, 91, 93, 91, 93, 91, 93])
    (BFprogram.new "mod.test" [91, 91, 93, 91, 93, 91, 93])
    "mod.test" 1 1 (by decide)

/-- C9: bracket validation only ever changes the stored bracket table: the
instruction sequence and source name survive every call, and when the call
reports an error the whole program (bracket table included) is exactly the
one passed in. -/
theorem validate_brackets_frame (p : BFprogram) :
    ((p.validate_brackets).1.src = p.src ∧
     (p.validate_brackets).1.source_name = p.source_name) ∧
    (∀ e, (p.validate_brackets).2 = some e → (p.validate_brackets).1 = p) := by
  unfold BFprogram.validate_brackets
  cases hg : validateGo p.source_name p.src 0 [] [] with
  | error e => exact ⟨⟨rfl, rfl⟩, fun _ _ => rfl⟩
  | ok sb =>
    obtain ⟨s, b⟩ := sb
    cases s with
    | cons idx stail => exact ⟨⟨rfl, rfl⟩, fun _ _ => rfl⟩
    | nil => exact ⟨⟨rfl, rfl⟩, fun e' he => by cases he⟩

/-- Witness for C9 at the concrete program of one lone closing bracket,
which makes validation fail and leave the program untouched. -/
theorem validate_brackets_frame_witness :
    (((BFprogram.new "w" [93]).validate_brackets).1.src = (BFprogram.new "w" [93]).src ∧
     ((BFprogram.new "w" [93]).validate_brackets).1.source_name
       = (BFprogram.new "w" [93]).source_name) ∧
    ((BFprogram.new "w" [93]).validate_brackets).1 = BFprogram.new "w" [93] :=
  ⟨(validate_brackets_frame (BFprogram.new "w" [93])).1,
   (validate_brackets_frame (BFprogram.new "w" [93])).2
     (.ExtraClosingBracket "w" 1 1) (by decide)⟩

/-- Brainf*ck interpreter internal state (struct `BFVM<C>`). -/
structure BFVM (C : Type) where
  tape : List C
  head : Nat
  growable : Bool
deriving DecidableEq

/-- `Option<NonZeroUsize>` as produced by `NonZeroUsize::new`: a zero value
becomes `none`. -/
def nonZeroUsizeNew (n : Nat) : Option Nat :=
  if n = 0 then none else some n

/-- `BFVM::new`: `capacity.map_or(30000, NonZeroUsize::get)` cells, each the
cell type's default value (passed explicitly as `dflt`), head at 0. -/
def BFVM.new {C : Type} (dflt : C) (capacity : Option Nat) (growable : Bool) :
    BFVM C :=
  { tape := List.replicate (match capacity with | some n => n | none => 30000) dflt,
    head := 0,
    growable := growable }

/-- C7: a fresh VM has a tape of the requested capacity, or 30000 cells when
the capacity is absent — including when a zero capacity is supplied, since
`NonZeroUsize::new 0` is `none` — every cell holding the default value, and
the head at index 0. -/
theorem BFVM_new_spec :
    (∀ (C : Type) (dflt : C) (g : Bool),
      (BFVM.new dflt none g).tape.length = 30000 ∧
      (∀ x ∈ (BFVM.new dflt none g).tape, x = dflt) ∧
      (BFVM.new dflt none g).head = 0) ∧
    (∀ (C : Type) (dflt : C) (n : Nat) (g : Bool),
      (BFVM.new dflt (nonZeroUsizeNew n) g).tape.length
        = (if n = 0 then 30000 else n) ∧
      (∀ x ∈ (BFVM.new dflt (nonZeroUsizeNew n) g).tape, x = dflt) ∧
      (BFVM.new dflt (nonZeroUsizeNew n) g).head = 0) := by
  constructor
  · intro C dflt g
    exact ⟨List.length_replicate 30000 dflt, fun x hx => List.eq_of_mem_replicate hx, rfl⟩
  · intro C dflt n g
    refine ⟨?_, fun x hx => List.eq_of_mem_replicate hx, rfl⟩
    by_cases h : n = 0
    · subst h
      rw [if_pos rfl]
      exact List.length_replicate 30000 dflt
    · have hnz : nonZeroUsizeNew n = some n := if_neg h
      rw [if_neg h, hnz]
      exact List.length_replicate n dflt

/-- Witness for C7: a VM over natural-number cells with default value 7 and
requested capacity 2, and one with the zero capacity that falls back
to 30000 cells. -/
theorem BFVM_new_spec_witness :
    ((BFVM.new 7 (nonZeroUsizeNew 2) false).tape.length = (if 2 = 0 then 30000 else 2) ∧
     (∀ x ∈ (BFVM.new 7 (nonZeroUsizeNew 2) false).tape, x = 7) ∧
     (BFVM.new 7 (nonZeroUsizeNew 2) false).head = 0) ∧
    (BFVM.new 7 (nonZeroUsizeNew 0) true).tape.length = (if 0 = 0 then 30000 else 0) :=
  ⟨BFVM_new_spec.2 Nat 7 2 false, (BFVM_new_spec.2 Nat 7 0 true).1⟩

/-- `Display for Instruction`: the human-readable opcode names. -/
def Instruction.display : Instruction → String
  | .MoveLeft => "Move left one location"
  | .MoveRight => "Move right one location"
  | .Increment => "Increment current location"
  | .Decrement => "Decrement current location"
  | .Input => "Accept one byte of input"
  | .Output => "Output the current byte"
  | .BeginLoop => "Start looping"
  | .EndLoop => "Finish looping"

/-- `InputInstruction::location`: the line and column joined by a colon. -/
def InputInstruction.location (i : InputInstruction) : String :=
  toString i.line_number ++ ":" ++ toString i.char_number

/-- One line printed by `BFVM::interpret`; the `PathBuf` is rendered with its
debug formatting, which quotes it. -/
def formatInstLine (source_name : String) (i : InputInstruction) : String :=
  "[" ++ "\"" ++ source_name ++ "\"" ++ ":" ++ i.location ++ "] " ++ i.inst.display

/-- The print loop of `BFVM::interpret`: one output line per instruction, in
order. -/
def interpretGo (source_name : String) : List InputInstruction → List String
  | [] => []
  | i :: rest => formatInstLine source_name i :: interpretGo source_name rest

/-- `BFVM::interpret` takes `&self` and a `&BFprogram`, prints one line per
instruction and returns unit; it is modelled as returning the (necessarily
unchanged) VM and program together with the printed lines. -/
def BFVM.interpret {C : Type} (vm : BFVM C) (code : BFprogram) :
    BFVM C × BFprogram × List String :=
  (vm, code, interpretGo code.source_name code.src)

theorem interpretGo_eq_map (source_name : String) :
    ∀ l : List InputInstruction,
      interpretGo source_name l = l.map (formatInstLine source_name) := by
  intro l
  induction l with
  | nil => rfl
  | cons i rest ih => simp [interpretGo, ih]

/-- C10: `interpret` leaves the VM (tape, head, growable flag) and the
program untouched; it only emits one line of text per instruction and applies
no opcode semantics. -/
theorem interpret_frame {C : Type} (vm : BFVM C) (code : BFprogram) :
    (vm.interpret code).1 = vm ∧
    (vm.interpret code).2.1 = code ∧
    (vm.interpret code).2.2.length = code.src.length ∧
    (vm.interpret code).2.2 = code.src.map (formatInstLine code.source_name) := by
  refine ⟨rfl, rfl, ?_, interpretGo_eq_map code.source_name code.src⟩
  rw [show (vm.interpret code).2.2 = interpretGo code.source_name code.src from rfl,
    interpretGo_eq_map]
  exact List.length_map code.src (formatInstLine code.source_name)

/-- Runtime errors of the execution engine described by the spec. -/
inductive ExecutionError where
  | TapeUnderflow
  | TapeOverflow
deriving DecidableEq

/-- Modelled from the spec: the state of the execution engine of spec
section 4.3 (tape of 8-bit cells as naturals below 256, data pointer,
instruction pointer, remaining input bytes and emitted output bytes).  The
engine itself is absent from the repository: `BFVM::interpret` only prints
the instructions, which the spec itself flags as a placeholder for these
semantics. -/
structure ExecState where
  tape : List Nat
  head : Nat
  ip : Nat
  input : List Nat
  output : List Nat
deriving DecidableEq

/-- Modelled from the spec: one execution step of spec section 4.3 for a
validated program with jump table `brackets`.  MoveRight grows a growable
tape up to the new index or fails with TapeOverflow; MoveLeft below zero is
TapeUnderflow; Increment and Decrement wrap on the 8-bit cell width and never
fail; Input at end of input is a no-op; loops jump through the matched pair
of the jump table and otherwise fall through. -/
def execStep (growable : Bool) (brackets : List (Nat × Nat))
    (inst : Instruction) (st : ExecState) : Except ExecutionError ExecState :=
  match inst with
  | .MoveRight =>
    if st.head + 1 < st.tape.length then
      .ok { st with head := st.head + 1, ip := st.ip + 1 }
    else if growable then
      .ok { st with
        tape := st.tape ++ List.replicate (st.head + 2 - st.tape.length) 0,
        head := st.head + 1, ip := st.ip + 1 }
    else
      .error .TapeOverflow
  | .MoveLeft =>
    if st.head = 0 then
      .error .TapeUnderflow
    else
      .ok { st with head := st.head - 1, ip := st.ip + 1 }
  | .Increment =>
    .ok { st with
      tape := st.tape.set st.head ((st.tape.getD st.head 0 + 1) % 256),
      ip := st.ip + 1 }
  | .Decrement =>
    .ok { st with
      tape := st.tape.set st.head ((st.tape.getD st.head 0 + 255) % 256),
      ip := st.ip + 1 }
  | .Input =>
    match st.input with
    | [] => .ok { st with ip := st.ip + 1 }
    | c :: rest =>
      .ok { st with tape := st.tape.set st.head c, input := rest, ip := st.ip + 1 }
  | .Output =>
    .ok { st with output := st.output ++ [st.tape.getD st.head 0], ip := st.ip + 1 }
  | .BeginLoop =>
    if st.tape.getD st.head 0 = 0 then
      match brackets.find? (fun pr => pr.1 == st.ip) with
      | some pr => .ok { st with ip := pr.2 }
      | none => .ok { st with ip := st.ip + 1 }
    else
      .ok { st with ip := st.ip + 1 }
  | .EndLoop =>
    if st.tape.getD st.head 0 ≠ 0 then
      match brackets.find? (fun pr => pr.2 == st.ip) with
      | some pr => .ok { st with ip := pr.1 }
      | none => .ok { st with ip := st.ip + 1 }
    else
      .ok { st with ip := st.ip + 1 }

/-- C6: Increment and Decrement never fail; they replace the cell at the data
pointer by its successor or predecessor modulo the 8-bit cell width and
advance the instruction pointer, touching nothing else; concretely an 8-bit
cell at 255 increments to 0 and a cell at 0 decrements to 255. -/
theorem execStep_inc_dec_wraparound :
    (∀ (growable : Bool) (brackets : List (Nat × Nat)) (st : ExecState),
      execStep growable brackets .Increment st
        = .ok { st with
            tape := st.tape.set st.head ((st.tape.getD st.head 0 + 1) % 256),
            ip := st.ip + 1 } ∧
      execStep growable brackets .Decrement st
        = .ok { st with
            tape := st.tape.set st.head ((st.tape.getD st.head 0 + 255) % 256),
            ip := st.ip + 1 }) ∧
    execStep false [] .Increment ⟨[255], 0, 0, [], []⟩ = .ok ⟨[0], 0, 1, [], []⟩ ∧
    execStep false [] .Decrement ⟨[0], 0, 0, [], []⟩ = .ok ⟨[255], 0, 1, [], []⟩ :=
  ⟨fun _ _ _ => ⟨rfl, rfl⟩, by norm_num [execStep], by norm_num [execStep]⟩

/-- `Display for BracketMatchError`: the message and the bracketed
source-name, line and column location. -/
def BracketMatchError.display : BracketMatchError → String
  | .ExtraClosingBracket source_name line_number char_number =>
      "Unexpected closing bracket ']' at [" ++ source_name ++ ":"
        ++ toString line_number ++ ":" ++ toString char_number ++ "]"
  | .ExtraOpeningBracket source_name line_number char_number =>
      "Unmatched bracket '[' at [" ++ source_name ++ ":"
        ++ toString line_number ++ ":" ++ toString char_number ++ "]"

/-- Whether the first list of characters starts with the second. -/
def charsStartWith : List Char → List Char → Bool
  | _, [] => true
  | [], _ :: _ => false
  | a :: as, b :: bs => a == b && charsStartWith as bs

theorem charsStartWith_append :
    ∀ hd tl : List Char, charsStartWith (hd ++ tl) hd = true := by
  intro hd
  induction hd with
  | nil => intro tl; cases tl <;> rfl
  | cons a as ih => intro tl; simp [charsStartWith, ih]

/-- A string of the form `t ++ m` always starts with the characters of `t`,
so a rendered diagnostic that fails `charsStartWith` on a head is not of the
form `that head ++ message` for any message. -/
theorem charsStartWith_of_append (t m : String) :
    charsStartWith (t ++ m).data t.data = true := by
  show charsStartWith (t.data ++ m.data) t.data = true
  exact charsStartWith_append t.data m.data

/-- The diagnostic head the spec prescribes: source id, line and column
joined by colons, then a colon and a space before the message.  A diagnostic
in the spec's format is exactly such a head followed by the message. -/
def specDiagnosticHead (source_name : String) (line_number char_number : Nat) :
    String :=
  source_name ++ ":" ++ toString line_number ++ ":" ++ toString char_number ++ ": "

/-- Counterexample to C8: the rendered unmatched-closing-bracket diagnostic
for source `mod.test`, line 42, column 78 does not start with the
`<source-id>:<line>:<column>: ` head the spec prescribes, so by
`charsStartWith_of_append` it is not that head followed by any message; it is
the message followed by the bracketed location instead. -/
theorem display_not_spec_format :
    charsStartWith
        ((BracketMatchError.ExtraClosingBracket "mod.test" 42 78).display).data
        (specDiagnosticHead "mod.test" 42 78).data = false ∧
    (BracketMatchError.ExtraClosingBracket "mod.test" 42 78).display
      = "Unexpected closing bracket ']' at [mod.test:42:78]" := by
  exact ⟨by decide, by decide⟩

/-- C8 (amended): a structural error renders as
`<message> at [<source-id>:<line>:<column>]`, the message being
`Unexpected closing bracket ']'` for the unmatched-closing case and
`Unmatched bracket '['` for the unmatched-opening case; concretely the two
renderings checked by the crate's unit test. -/
theorem display_message_then_location :
    (∀ (nm : String) (ln ch : Nat),
      (BracketMatchError.ExtraClosingBracket nm ln ch).display
        = "Unexpected closing bracket ']'" ++ " at ["
            ++ nm ++ ":" ++ toString ln ++ ":" ++ toString ch ++ "]" ∧
      (BracketMatchError.ExtraOpeningBracket nm ln ch).display
        = "Unmatched bracket '['" ++ " at ["
            ++ nm ++ ":" ++ toString ln ++ ":" ++ toString ch ++ "]") ∧
    (BracketMatchError.ExtraOpeningBracket "mod.test" 12 45).display
      = "Unmatched bracket '[' at [mod.test:12:45]" ∧
    (BracketMatchError.ExtraClosingBracket "mod.test" 42 78).display
      = "Unexpected closing bracket ']' at [mod.test:42:78]" := by
  refine ⟨fun nm ln ch => ⟨?_, ?_⟩, by decide, by decide⟩
  · show "Unexpected closing bracket ']' at [" ++ nm ++ ":"
        ++ toString ln ++ ":" ++ toString ch ++ "]"
      = "Unexpected closing bracket ']'" ++ " at ["
        ++ nm ++ ":" ++ toString ln ++ ":" ++ toString ch ++ "]"
    simp [String.append_assoc]
  · show "Unmatched bracket '[' at [" ++ nm ++ ":"
        ++ toString ln ++ ":" ++ toString ch ++ "]"
      = "Unmatched bracket '['" ++ " at ["
        ++ nm ++ ":" ++ toString ln ++ ":" ++ toString ch ++ "]"
    simp [String.append_assoc]
